import Mathlib

/-!
Verification of the EditorX text-editing core (src/src/assets/funcional1.jsx).

The JavaScript source operates on strings and arrays of strings.  Here a
string is shallowly embedded as a `List Char`, and the line buffer obtained by
`content.split('\n')` as a `List (List Char)`.  Each definition below is a
direct translation of the corresponding source function; the source line
numbers are given in the doc comments.  JavaScript regular expressions built
by `new RegExp(escapeRegExp(q), 'gi')` denote case-insensitive literal
matching of `q`, which is embedded directly as a case-folding character
comparison (`lowerCode`).
-/

namespace EditorX

/-- A document's flat text content (a JS string). -/
abbrev Content := List Char

/-- One line of text (no embedded newline). -/
abbrev Line := List Char

/-- JS `content.split('\n')`: splitting an empty string yields `[""]`,
and every `'\n'` separates two (possibly empty) lines. -/
def splitLines : Content → List Line
  | [] => [[]]
  | c :: cs =>
    match splitLines cs with
    | [] => [[]]
    | l :: ls => if c = '\n' then [] :: l :: ls else (c :: l) :: ls

/-- JS `lines.join('\n')`. -/
def joinLines : List Line → Content
  | [] => []
  | [l] => l
  | l :: ls => l ++ '\n' :: joinLines ls

/-- Length of `lines[i]` (JS indexing; in-range by the cursor invariant). -/
def lineLen (lines : List Line) (i : Nat) : Nat := (lines.getD i []).length

/-- The keys distinguished by `handleKeyDown` (funcional1.jsx lines 351-447).
`char c` is a printable single-character key with no Ctrl/Meta modifier;
`other` is any other key (handled by no `switch` case, hence a no-op). -/
inductive Key where
  | arrowUp | arrowDown | arrowLeft | arrowRight
  | home | endKey
  | backspace | enter
  | char (c : Char)
  | ctrlZ | ctrlY | ctrlS
  | other
deriving DecidableEq, Repr

/-- Result of the `switch (e.key)` block: the possibly mutated line array,
the new cursor, and the `contentChanged` flag. -/
structure DispatchResult where
  lines : List Line
  line : Nat
  char : Nat
  changed : Bool
deriving DecidableEq, Repr

/-- The `switch (e.key)` block of `handleKeyDown` (funcional1.jsx lines
408-441), as a pure function of the line array and the cursor `(line, char)`.
Out-of-range line accesses are modelled by the `""` default (the claims only
concern in-range cursors). -/
def dispatchKey (k : Key) (lines : List Line) (line char : Nat) : DispatchResult :=
  match k with
  | .arrowUp =>
    if 0 < line then ⟨lines, line - 1, min char (lineLen lines (line - 1)), false⟩
    else ⟨lines, line, char, false⟩
  | .arrowDown =>
    if line < lines.length - 1 then ⟨lines, line + 1, min char (lineLen lines (line + 1)), false⟩
    else ⟨lines, line, char, false⟩
  | .arrowLeft =>
    if 0 < char then ⟨lines, line, char - 1, false⟩
    else if 0 < line then ⟨lines, line - 1, lineLen lines (line - 1), false⟩
    else ⟨lines, line, char, false⟩
  | .arrowRight =>
    if char < lineLen lines line then ⟨lines, line, char + 1, false⟩
    else if line < lines.length - 1 then ⟨lines, line + 1, 0, false⟩
    else ⟨lines, line, char, false⟩
  | .home => ⟨lines, line, 0, false⟩
  | .endKey => ⟨lines, line, lineLen lines line, false⟩
  | .backspace =>
    if 0 < char then
      let cur := lines.getD line []
      ⟨lines.set line (cur.take (char - 1) ++ cur.drop char), line, char - 1, true⟩
    else if 0 < line then
      let prev := lines.getD (line - 1) []
      let cur := lines.getD line []
      ⟨(lines.set (line - 1) (prev ++ cur)).eraseIdx line, line - 1, prev.length, true⟩
    else
      ⟨lines, line, char, true⟩
  | .enter =>
    let cur := lines.getD line []
    let after := cur.drop char
    ⟨List.insertIdx (line + 1) after (lines.set line (cur.take char)), line + 1, 0, true⟩
  | .char c =>
    let cur := lines.getD line []
    ⟨lines.set line (cur.take char ++ c :: cur.drop char), line, char + 1, true⟩
  | _ => ⟨lines, line, char, false⟩

/-- The whole editor state relevant to one open document: the live content
(`currentFile.content`), the cursor (`cursorPosition`), and the snapshot
history (`history`, `historyIndex`).  `historyIndex` is an `Int` because the
source initialises it to `-1` when no document is loaded. -/
structure EditorState where
  content : Content
  cursorLine : Nat
  cursorChar : Nat
  history : List Content
  historyIndex : Int
deriving DecidableEq, Repr

/-- JS array read `history[i]`: `none` for a negative or out-of-range index. -/
def histGet (h : List Content) (i : Int) : Option Content :=
  if i < 0 then none else h[i.toNat]?

/-- `updateContentAndHistory` (funcional1.jsx lines 247-261) with
`addToHistory = true`: sets the content, and unless the entry at
`historyIndex` already equals it, truncates the redo branch
(`history.slice(0, historyIndex + 1)`), appends the content and moves the
index to the new last position. -/
def updateContentAndHistory (newContent : Content) (st : EditorState) : EditorState :=
  let st := { st with content := newContent }
  if histGet st.history st.historyIndex = some newContent then st
  else
    let nh := st.history.take (st.historyIndex + 1).toNat ++ [newContent]
    { st with history := nh, historyIndex := (nh.length : Int) - 1 }

/-- `handleKeyDown` (funcional1.jsx lines 351-447).  The Ctrl+S / Ctrl+Z /
Ctrl+Y accelerators return before the `switch`; Ctrl+S only exports the
content (no state change).  Undo and redo call
`updateContentAndHistory(history[newIndex], false)`, i.e. they set the content
without touching the history, and they do not touch the cursor. -/
def handleKeyDown (k : Key) (st : EditorState) : EditorState :=
  match k with
  | .ctrlS => st
  | .ctrlZ =>
    if 0 < st.historyIndex then
      let newIndex := st.historyIndex - 1
      { st with historyIndex := newIndex,
                content := (histGet st.history newIndex).getD st.content }
    else st
  | .ctrlY =>
    if st.historyIndex < (st.history.length : Int) - 1 then
      let newIndex := st.historyIndex + 1
      { st with historyIndex := newIndex,
                content := (histGet st.history newIndex).getD st.content }
    else st
  | k =>
    let lines := splitLines st.content
    let r := dispatchKey k lines st.cursorLine st.cursorChar
    let st' := if r.changed then updateContentAndHistory (joinLines r.lines) st else st
    { st' with cursorLine := r.line, cursorChar := r.char }

/-- Loading a document: cursor starts at `(0, 0)` (the `cursorPosition`
initial state) and the history-reset effect (funcional1.jsx lines 265-273)
installs a single history entry equal to the content, with index `0`. -/
def loadDocument (content : Content) : EditorState :=
  ⟨content, 0, 0, [content], 0⟩

/-- The cursor invariant of spec §3: `0 <= line < N` and
`0 <= column <= length(lines[line])`. -/
def cursorInRange (lines : List Line) (line char : Nat) : Prop :=
  line < lines.length ∧ char ≤ lineLen lines line

instance (lines : List Line) (line char : Nat) :
    Decidable (cursorInRange lines line char) := by
  unfold cursorInRange; infer_instance

/-! ### Search and replace

`escapeRegExp` (funcional1.jsx lines 14-17) escapes every regex
metacharacter, so `new RegExp(escapeRegExp(q), 'gi')` matches exactly the
literal string `q`, case-insensitively and globally.  That composite is
embedded as repeated case-folded literal matching. -/

/-- ASCII case folding of a character code, the comparison performed by a
case-insensitive (`'i'` flag) literal match. -/
def lowerCode (c : Char) : Nat :=
  if 65 ≤ c.toNat ∧ c.toNat ≤ 90 then c.toNat + 32 else c.toNat

/-- Whether the literal pattern `q` matches (case-insensitively) at the start
of `s`. -/
def matchesAt : List Char → List Char → Bool
  | [], _ => true
  | _ :: _, [] => false
  | a :: q, b :: s => lowerCode a == lowerCode b && matchesAt q s

/-- The repeated-`exec` scan of a global regex over `s` (funcional1.jsx lines
290-305): starting at offset `pos`, each (leftmost, non-overlapping) match of
the literal `q` contributes a `(start, end)` pair and the scan resumes at the
match end.  A zero-length match (only possible for an empty `q`) is skipped by
the source's `regex.lastIndex++` guard, so an empty `q` yields no matches. -/
def findAux (q : List Char) : (s : List Char) → (pos : Nat) → List (Nat × Nat)
  | [], _ => []
  | c :: s', pos =>
    if h : q ≠ [] ∧ matchesAt q (c :: s') then
      (pos, pos + q.length) :: findAux q ((c :: s').drop q.length) (pos + q.length)
    else
      findAux q s' (pos + 1)
termination_by s => s.length
decreasing_by
  · have hq : 1 ≤ q.length := by
      cases q with
      | nil => exact absurd rfl h.1
      | cons a t => exact Nat.succ_le_succ (Nat.zero_le _)
    simp only [List.length_drop, List.length_cons]
    omega
  · simp only [List.length_cons]
    omega

/-- A search hit `{line, start, end}` (funcional1.jsx lines 299-303). -/
structure SearchSpan where
  line : Nat
  start : Nat
  endPos : Nat
deriving DecidableEq, Repr

/-- The `lines.forEach` loop of the search effect (funcional1.jsx lines
290-305): per-line matches, tagged with their line index. -/
def searchLines (q : List Char) : List Line → Nat → List SearchSpan
  | [], _ => []
  | l :: ls, i =>
    (findAux q l 0).map (fun p => ⟨i, p.1, p.2⟩) ++ searchLines q ls (i + 1)

/-- The body of the search effect guarded by the `try`/`catch`
(funcional1.jsx lines 285-309): a failed pattern compilation (the `catch`)
yields the empty result set. -/
def searchWithPattern (pat : Option (List Char)) (content : Content) : List SearchSpan :=
  match pat with
  | none => []
  | some q => searchLines q (splitLines content) 0

/-- Compiling `new RegExp(escapeRegExp(q), 'gi')`: an escaped literal is
always a valid pattern, so compilation never fails. -/
def compileSearchQuery (q : List Char) : Option (List Char) := some q

/-- The search effect (funcional1.jsx lines 278-310): an empty query (falsy
`searchQuery`) short-circuits to the empty result set; otherwise the compiled
pattern is scanned over every line.  The function is total: no error is ever
propagated to the caller. -/
def searchRecompute (q : List Char) (content : Content) : List SearchSpan :=
  if q.isEmpty then [] else searchWithPattern (compileSearchQuery q) content

/-- `originalContent.match(regex).length` (funcional1.jsx line 330): the
number of non-overlapping case-insensitive literal matches in the flat
content. -/
def matchCount (q : List Char) (content : Content) : Nat :=
  (findAux q content 0).length

/-- JavaScript `GetSubstitution` for a string replacement argument with no
capture groups (the escaped pattern contains none): `$$` is a literal `$`,
`$&` the matched text, a dollar followed by backquote the text before the
match, a dollar followed by a single quote the text after it; any other `$`
is literal (in particular `$1` with no groups). -/
def getSubstitution (matched before after : List Char) : List Char → List Char
  | [] => []
  | [c] => if c = '$' then ['$'] else [c]
  | c :: d :: rest' =>
    if c = '$' then
      if d = '$' then '$' :: getSubstitution matched before after rest'
      else if d = '&' then matched ++ getSubstitution matched before after rest'
      else if d = Char.ofNat 96 then before ++ getSubstitution matched before after rest'
      else if d = Char.ofNat 39 then after ++ getSubstitution matched before after rest'
      else '$' :: getSubstitution matched before after (d :: rest')
    else c :: getSubstitution matched before after (d :: rest')

/-- The scan performed by `originalContent.replace(regex, replaceQuery)`
(funcional1.jsx line 338): each non-overlapping case-insensitive literal
match of `q` is replaced by the substitution of `repl`, everything else is
copied.  `full` is the whole original content and `pos` the current offset
(needed for the before/after parts of the substitution). -/
def replaceAux (q repl full : List Char) : (s : List Char) → (pos : Nat) → List Char
  | [], _ => []
  | c :: s', pos =>
    if h : q ≠ [] ∧ matchesAt q (c :: s') then
      getSubstitution ((c :: s').take q.length) (full.take pos) (full.drop (pos + q.length)) repl
        ++ replaceAux q repl full ((c :: s').drop q.length) (pos + q.length)
    else
      c :: replaceAux q repl full s' (pos + 1)
termination_by s => s.length
decreasing_by
  · have hq : 1 ≤ q.length := by
      cases q with
      | nil => exact absurd rfl h.1
      | cons a t => exact Nat.succ_le_succ (Nat.zero_le _)
    simp only [List.length_drop, List.length_cons]
    omega
  · simp only [List.length_cons]
    omega

/-- `originalContent.replace(new RegExp(escapeRegExp(q), 'gi'), repl)`. -/
def replaceString (q repl content : Content) : Content :=
  replaceAux q repl content content 0

/-- The user-visible outcome of `handleReplaceAll`: the informational
"no matches" notice, the success notice carrying the replaced count, or no
notice at all. -/
inductive ReplaceNotice where
  | silent
  | noMatches
  | success (count : Nat)
deriving DecidableEq, Repr

/-- Result of `handleReplaceAll`: the new flat content, the match count of
the original content, and the reported outcome. -/
structure ReplaceAllResult where
  newContent : Content
  count : Nat
  notice : ReplaceNotice
deriving DecidableEq, Repr

/-- `handleReplaceAll` (funcional1.jsx lines 322-347): an empty query returns
immediately; with zero matches the content is untouched and the "no matches"
notice is shown; otherwise the substitution runs and, when it changed the
content, it is committed with a success notice carrying the count of matches
in the *original* content. -/
def handleReplaceAll (q repl content : Content) : ReplaceAllResult :=
  if q.isEmpty then ⟨content, 0, .silent⟩
  else
    let m := matchCount q content
    if m = 0 then ⟨content, 0, .noMatches⟩
    else
      let nc := replaceString q repl content
      if nc = content then ⟨content, m, .silent⟩
      else ⟨nc, m, .success m⟩

/-- Modelled from the spec (§4.5): "Replacement string is inserted verbatim
(no capture-group semantics)" — the same scan as `replaceAux` but splicing
the replacement in unprocessed.  Used to compare the spec's wording against
the source's `String.replace` semantics. -/
def replaceVerbatimAux (q repl : List Char) : (s : List Char) → List Char
  | [] => []
  | c :: s' =>
    if h : q ≠ [] ∧ matchesAt q (c :: s') then
      repl ++ replaceVerbatimAux q repl ((c :: s').drop q.length)
    else
      c :: replaceVerbatimAux q repl s'
termination_by s => s.length
decreasing_by
  · have hq : 1 ≤ q.length := by
      cases q with
      | nil => exact absurd rfl h.1
      | cons a t => exact Nat.succ_le_succ (Nat.zero_le _)
    simp only [List.length_drop, List.length_cons]
    omega
  · simp only [List.length_cons]
    omega

/-- Modelled from the spec (§4.5): whole-content replace-all with the
replacement inserted verbatim. -/
def replaceVerbatim (q repl content : Content) : Content :=
  replaceVerbatimAux q repl content

/-! ### Multi-document session and the history-reset effect -/

/-- An open document: `{name, content}`. -/
structure Doc where
  name : List Char
  content : Content
deriving DecidableEq, Repr

/-- The session state owned outside the editor: the open-file list and the
active index (`openedFiles`, `currentFileIndex`). -/
structure SessionState where
  openedFiles : List Doc
  currentFileIndex : Nat
deriving DecidableEq, Repr

/-- `openedFiles[currentFileIndex]` (`currentFile`). -/
def activeFile (s : SessionState) : Option Doc :=
  s.openedFiles[s.currentFileIndex]?

/-- `currentFile?.name`: the first dependency of the history-reset effect. -/
def activeName (s : SessionState) : Option (List Char) :=
  (activeFile s).map (·.name)

/-- The snapshot-history substate (`history`, `historyIndex`). -/
structure HistState where
  history : List Content
  index : Int
deriving DecidableEq, Repr

/-- The body of the history-reset effect (funcional1.jsx lines 265-273):
with an active document the history becomes the single entry holding its
content with index `0`; with none it becomes empty with index `-1`. -/
def resetHistory (s : SessionState) : HistState :=
  match activeFile s with
  | some f => ⟨[f.content], 0⟩
  | none => ⟨[], -1⟩

/-- React's effect semantics for dependency list
`[currentFileIndex, currentFile?.name]` (funcional1.jsx line 273): the reset
body runs after a transition exactly when one of the two dependency values
changed; otherwise the history is left as it was. -/
def historyAfterEffect (old new : SessionState) (h : HistState) : HistState :=
  if old.currentFileIndex ≠ new.currentFileIndex ∨ activeName old ≠ activeName new then
    resetHistory new
  else h

/-- `handleClose(indexToClose)` (funcional1.jsx lines 484-503): remove the
file, and adjust `currentFileIndex` — to `0` when no files remain, to
`max 0 (indexToClose - 1)` when the active file itself was closed, one lower
when a file before the active one was closed, unchanged otherwise. -/
def closeStep (indexToClose : Nat) (s : SessionState) : SessionState :=
  let newFiles := s.openedFiles.eraseIdx indexToClose
  if newFiles.length = 0 then ⟨newFiles, 0⟩
  else if s.currentFileIndex = indexToClose then ⟨newFiles, indexToClose - 1⟩
  else if s.currentFileIndex > indexToClose then ⟨newFiles, s.currentFileIndex - 1⟩
  else ⟨newFiles, s.currentFileIndex⟩

/-- Closing a document together with the subsequent run (or skip) of the
history-reset effect. -/
def closeAndEffect (indexToClose : Nat) (s : SessionState) (h : HistState) :
    SessionState × HistState :=
  let s' := closeStep indexToClose s
  (s', historyAfterEffect s s' h)

/-- Switching the active document (explorer or tab click:
`setCurrentFileIndex`) together with the subsequent effect run. -/
def switchAndEffect (i : Nat) (s : SessionState) (h : HistState) :
    SessionState × HistState :=
  let s' : SessionState := ⟨s.openedFiles, i⟩
  (s', historyAfterEffect s s' h)

end EditorX

namespace EditorX

/-- C1: starting from a freshly loaded `"ab\ncd"` document, Right, Right moves
the cursor to (0,2); a further Right wraps to (1,0); Enter splits the line,
yielding content `"ab\n\ncd"`, cursor (2,0), and commits the new content to
history (history `["ab\ncd", "ab\n\ncd"]`, index 1). -/
theorem C1_end_to_end :
    handleKeyDown .arrowRight (handleKeyDown .arrowRight (loadDocument ("ab\ncd").toList))
      = ⟨("ab\ncd").toList, 0, 2, [("ab\ncd").toList], 0⟩ ∧
    handleKeyDown .arrowRight (handleKeyDown .arrowRight (handleKeyDown .arrowRight
        (loadDocument ("ab\ncd").toList)))
      = ⟨("ab\ncd").toList, 1, 0, [("ab\ncd").toList], 0⟩ ∧
    handleKeyDown .enter (handleKeyDown .arrowRight (handleKeyDown .arrowRight
        (handleKeyDown .arrowRight (loadDocument ("ab\ncd").toList))))
      = ⟨("ab\n\ncd").toList, 2, 0, [("ab\ncd").toList, ("ab\n\ncd").toList], 1⟩ := by
  refine ⟨?_, ?_, ?_⟩ <;> decide

/-! ### History lemmas -/

theorem histGet_eq_getElem? (h : List Content) (i : Int) (h0 : 0 ≤ i) :
    histGet h i = h[i.toNat]? := by
  simp [histGet, not_lt.mpr h0]

theorem histGet_isSome (h : List Content) (i : Int) (h0 : 0 ≤ i)
    (h1 : i < (h.length : Int)) : (histGet h i).isSome := by
  rw [histGet_eq_getElem? h i h0]
  rw [List.getElem?_eq_getElem (by omega)]
  rfl

theorem ctrlZ_eq (st : EditorState) (h : 0 < st.historyIndex) :
    handleKeyDown .ctrlZ st
      = { st with historyIndex := st.historyIndex - 1,
                  content := (histGet st.history (st.historyIndex - 1)).getD st.content } := by
  simp only [handleKeyDown]
  rw [if_pos h]

theorem ctrlY_eq (st : EditorState) (h : st.historyIndex < (st.history.length : Int) - 1) :
    handleKeyDown .ctrlY st
      = { st with historyIndex := st.historyIndex + 1,
                  content := (histGet st.history (st.historyIndex + 1)).getD st.content } := by
  simp only [handleKeyDown]
  rw [if_pos h]

/-- C2: with the history well-formed (`0 <= index < length`) and the §3
invariant `history[index] = content` in force: undo at a positive index
decrements the index and installs `history[index - 1]` as the content; a redo
performed immediately afterwards restores exactly the pre-undo live content;
undo at index 0 and redo at the last index are no-ops; and neither undo nor
redo ever changes the history list itself (applying their result is not a
commit). -/
theorem C2_undo_redo_inverse (st : EditorState)
    (hwf0 : 0 ≤ st.historyIndex) (hwf1 : st.historyIndex < (st.history.length : Int))
    (hinv : histGet st.history st.historyIndex = some st.content) :
    (0 < st.historyIndex →
      (handleKeyDown .ctrlZ st).historyIndex = st.historyIndex - 1 ∧
      histGet st.history (st.historyIndex - 1) = some (handleKeyDown .ctrlZ st).content) ∧
    (0 < st.historyIndex →
      (handleKeyDown .ctrlY (handleKeyDown .ctrlZ st)).content = st.content ∧
      (handleKeyDown .ctrlY (handleKeyDown .ctrlZ st)).historyIndex = st.historyIndex) ∧
    (st.historyIndex = 0 → handleKeyDown .ctrlZ st = st) ∧
    (st.historyIndex = (st.history.length : Int) - 1 → handleKeyDown .ctrlY st = st) ∧
    (handleKeyDown .ctrlZ st).history = st.history ∧
    (handleKeyDown .ctrlY st).history = st.history := by
  have hzhist : (handleKeyDown .ctrlZ st).history = st.history := by
    simp only [handleKeyDown]
    split <;> rfl
  have hyhist : (handleKeyDown .ctrlY st).history = st.history := by
    simp only [handleKeyDown]
    split <;> rfl
  refine ⟨?_, ?_, ?_, ?_, hzhist, hyhist⟩
  · intro hpos
    rw [ctrlZ_eq st hpos]
    have hsome := histGet_isSome st.history (st.historyIndex - 1) (by omega) (by omega)
    refine ⟨rfl, ?_⟩
    obtain ⟨v, hv⟩ := Option.isSome_iff_exists.mp hsome
    simp [hv]
  · intro hpos
    rw [ctrlZ_eq st hpos]
    rw [ctrlY_eq _ (by simpa using by omega)]
    simp only
    constructor
    · have : st.historyIndex - 1 + 1 = st.historyIndex := by omega
      rw [this, hinv]
      rfl
    · omega
  · intro h0
    simp only [handleKeyDown]
    rw [if_neg (by omega)]
  · intro hlast
    simp only [handleKeyDown]
    rw [if_neg (by omega)]

theorem C2_witness :
    (handleKeyDown .ctrlY (handleKeyDown .ctrlZ
        (⟨['b'], 0, 0, [['a'], ['b']], 1⟩ : EditorState))).content = ['b'] :=
  ((C2_undo_redo_inverse ⟨['b'], 0, 0, [['a'], ['b']], 1⟩
      (by decide) (by decide) (by decide)).2.1 (by decide)).1

theorem updateContentAndHistory_of_eq (st : EditorState) (c : Content)
    (h : histGet st.history st.historyIndex = some c) :
    updateContentAndHistory c st = { st with content := c } := by
  simp only [updateContentAndHistory]
  rw [if_pos h]

theorem updateContentAndHistory_of_ne (st : EditorState) (c : Content)
    (h : histGet st.history st.historyIndex ≠ some c) :
    updateContentAndHistory c st
      = { st with content := c,
                  history := st.history.take (st.historyIndex + 1).toNat ++ [c],
                  historyIndex :=
                    ((st.history.take (st.historyIndex + 1).toNat ++ [c]).length : Int) - 1 } := by
  simp only [updateContentAndHistory]
  rw [if_neg h]

/-- C3: with `0 <= index < length(history)`: committing the content already
pointed to by `index` leaves history and index unchanged; hence two
consecutive commits of the same content grow the history exactly once;
committing different content truncates the entries after `index`, appends the
content (the history then has exactly `index + 2` entries) and moves the index
to the new last position; and after an undo followed by a commit of content
distinct from the undone-to snapshot, redo is a no-op. -/
theorem C3_commit_semantics (st : EditorState) (c : Content)
    (hwf0 : 0 ≤ st.historyIndex) (hwf1 : st.historyIndex < (st.history.length : Int)) :
    (histGet st.history st.historyIndex = some c →
      (updateContentAndHistory c st).history = st.history ∧
      (updateContentAndHistory c st).historyIndex = st.historyIndex) ∧
    ((updateContentAndHistory c (updateContentAndHistory c st)).history
      = (updateContentAndHistory c st).history ∧
     (updateContentAndHistory c (updateContentAndHistory c st)).historyIndex
      = (updateContentAndHistory c st).historyIndex) ∧
    (histGet st.history st.historyIndex ≠ some c →
      (updateContentAndHistory c st).history
        = st.history.take (st.historyIndex + 1).toNat ++ [c] ∧
      (updateContentAndHistory c st).history.length = (st.historyIndex + 1).toNat + 1 ∧
      (updateContentAndHistory c st).historyIndex
        = ((updateContentAndHistory c st).history.length : Int) - 1) ∧
    (∀ x, 0 < st.historyIndex →
      some x ≠ histGet st.history (st.historyIndex - 1) →
      handleKeyDown .ctrlY (updateContentAndHistory x (handleKeyDown .ctrlZ st))
        = updateContentAndHistory x (handleKeyDown .ctrlZ st)) := by
  have htk : (st.history.take (st.historyIndex + 1).toNat).length
      = (st.historyIndex + 1).toNat := by
    rw [List.length_take]
    omega
  have hlast : ∀ d : Content,
      histGet (st.history.take (st.historyIndex + 1).toNat ++ [d])
        (((st.history.take (st.historyIndex + 1).toNat ++ [d]).length : Int) - 1) = some d := by
    intro d
    rw [histGet_eq_getElem? _ _
      (by simp only [List.length_append, List.length_cons, List.length_nil]; omega)]
    have hl : (((st.history.take (st.historyIndex + 1).toNat ++ [d]).length : Int) - 1).toNat
        = (st.history.take (st.historyIndex + 1).toNat).length := by
      simp only [List.length_append, List.length_cons, List.length_nil]
      omega
    rw [hl]
    exact List.getElem?_concat_length _ _
  have hy_noop : ∀ s : EditorState, ¬ s.historyIndex < (s.history.length : Int) - 1 →
      handleKeyDown .ctrlY s = s := by
    intro s hs
    simp only [handleKeyDown]
    rw [if_neg hs]
  have commit_noop_pair : ∀ (s : EditorState) (d : Content),
      histGet s.history s.historyIndex = some d →
      (updateContentAndHistory d s).history = s.history ∧
      (updateContentAndHistory d s).historyIndex = s.historyIndex := by
    intro s d hd
    rw [updateContentAndHistory_of_eq s d hd]
    exact ⟨rfl, rfl⟩
  refine ⟨?_, ?_, ?_, ?_⟩
  · intro h
    exact commit_noop_pair st c h
  · by_cases h : histGet st.history st.historyIndex = some c
    · rw [updateContentAndHistory_of_eq st c h]
      exact commit_noop_pair _ c h
    · rw [updateContentAndHistory_of_ne st c h]
      exact commit_noop_pair _ c (hlast c)
  · intro h
    rw [updateContentAndHistory_of_ne st c h]
    refine ⟨rfl, ?_, rfl⟩
    simp only [List.length_append, List.length_cons, List.length_nil, htk]
  · intro x hpos hx
    rw [ctrlZ_eq st hpos]
    rw [updateContentAndHistory_of_ne _ x (fun hh => hx hh.symm)]
    apply hy_noop
    simp only [List.length_append, List.length_cons, List.length_nil]
    omega

theorem C3_witness :
    (updateContentAndHistory ['b'] (⟨['a'], 0, 0, [['a']], 0⟩ : EditorState)).history
      = [['a'], ['b']] := by
  have h := ((C3_commit_semantics ⟨['a'], 0, 0, [['a']], 0⟩ ['b']
      (by decide) (by decide)).2.2.1 (by decide)).1
  rw [h]
  decide

/-- C4: for a non-empty line list and an in-range cursor, every directional
and jump motion of the `switch` behaves as specified: Up/Down move one line
clamping the column (no-ops at the first/last line), Left/Right move one
column wrapping across line boundaries (no-ops at (0,0) and at the end of the
last line), Home/End jump within the current line; none of them change the
buffer or set `contentChanged`. -/
theorem C4_cursor_motion (lines : List Line) (line char : Nat)
    (hne : lines ≠ []) (hl : line < lines.length) (hc : char ≤ lineLen lines line) :
    (0 < line → dispatchKey .arrowUp lines line char
      = ⟨lines, line - 1, min char (lineLen lines (line - 1)), false⟩) ∧
    (line = 0 → dispatchKey .arrowUp lines line char = ⟨lines, line, char, false⟩) ∧
    (line < lines.length - 1 → dispatchKey .arrowDown lines line char
      = ⟨lines, line + 1, min char (lineLen lines (line + 1)), false⟩) ∧
    (line = lines.length - 1 → dispatchKey .arrowDown lines line char
      = ⟨lines, line, char, false⟩) ∧
    (0 < char → dispatchKey .arrowLeft lines line char = ⟨lines, line, char - 1, false⟩) ∧
    (char = 0 → 0 < line → dispatchKey .arrowLeft lines line char
      = ⟨lines, line - 1, lineLen lines (line - 1), false⟩) ∧
    (char = 0 → line = 0 → dispatchKey .arrowLeft lines line char
      = ⟨lines, line, char, false⟩) ∧
    (char < lineLen lines line → dispatchKey .arrowRight lines line char
      = ⟨lines, line, char + 1, false⟩) ∧
    (char = lineLen lines line → line < lines.length - 1 →
      dispatchKey .arrowRight lines line char = ⟨lines, line + 1, 0, false⟩) ∧
    (char = lineLen lines line → line = lines.length - 1 →
      dispatchKey .arrowRight lines line char = ⟨lines, line, char, false⟩) ∧
    dispatchKey .home lines line char = ⟨lines, line, 0, false⟩ ∧
    dispatchKey .endKey lines line char = ⟨lines, line, lineLen lines line, false⟩ := by
  refine ⟨?_, ?_, ?_, ?_, ?_, ?_, ?_, ?_, ?_, ?_, rfl, rfl⟩
  · intro h
    simp only [dispatchKey]
    rw [if_pos h]
  · intro h
    simp only [dispatchKey]
    rw [if_neg (by omega)]
  · intro h
    simp only [dispatchKey]
    rw [if_pos h]
  · intro h
    simp only [dispatchKey]
    rw [if_neg (by omega)]
  · intro h
    simp only [dispatchKey]
    rw [if_pos h]
  · intro h0 hp
    simp only [dispatchKey]
    rw [if_neg (by omega), if_pos hp]
  · intro h0 hp
    simp only [dispatchKey]
    rw [if_neg (by omega), if_neg (by omega)]
  · intro h
    simp only [dispatchKey]
    rw [if_pos h]
  · intro he hlt
    simp only [dispatchKey]
    rw [if_neg (by omega), if_pos hlt]
  · intro he hlast
    simp only [dispatchKey]
    rw [if_neg (by omega), if_neg (by omega)]

theorem C4_witness :
    dispatchKey .arrowRight [['a', 'b'], ['c']] 0 2 = ⟨[['a', 'b'], ['c']], 1, 0, false⟩ := by
  have h := ((C4_cursor_motion [['a', 'b'], ['c']] 0 2
      (by decide) (by decide) (by decide)).2.2.2.2.2.2.2.2.1) (by decide) (by decide)
  exact h

/-! ### Search scan lemmas -/

theorem findAux_mem (q : List Char) : ∀ (s : List Char) (pos : Nat),
    ∀ p ∈ findAux q s pos,
      pos ≤ p.1 ∧ p.2 = p.1 + q.length ∧ matchesAt q (s.drop (p.1 - pos)) = true := by
  intro s pos
  induction s, pos using findAux.induct q with
  | case1 => simp [findAux]
  | case2 c s' pos h ih =>
    intro p hp
    rw [findAux, dif_pos h] at hp
    rcases List.mem_cons.mp hp with h1 | h1
    · subst h1
      exact ⟨Nat.le_refl _, rfl, by simpa using h.2⟩
    · obtain ⟨hge, hend, hmatch⟩ := ih p h1
      refine ⟨by omega, hend, ?_⟩
      rw [List.drop_drop] at hmatch
      have hsplit : p.1 - pos = q.length + (p.1 - (pos + q.length)) := by omega
      rw [hsplit]
      exact hmatch
  | case3 c s' pos h ih =>
    intro p hp
    rw [findAux, dif_neg h] at hp
    obtain ⟨hge, hend, hmatch⟩ := ih p hp
    refine ⟨by omega, hend, ?_⟩
    have hsplit : p.1 - pos = (p.1 - (pos + 1)) + 1 := by omega
    rw [hsplit, List.drop_succ_cons]
    exact hmatch

theorem findAux_sorted (q : List Char) : ∀ (s : List Char) (pos : Nat),
    (findAux q s pos).Pairwise (fun a b => a.1 < b.1) := by
  intro s pos
  induction s, pos using findAux.induct q with
  | case1 => simp [findAux]
  | case2 c s' pos h ih =>
    rw [findAux, dif_pos h]
    refine List.Pairwise.cons ?_ ih
    intro b hb
    have hq : 1 ≤ q.length := by
      cases hq : q with
      | nil => exact absurd hq h.1
      | cons a t => exact Nat.succ_le_succ (Nat.zero_le _)
    have := (findAux_mem q _ _ b hb).1
    simp only
    omega
  | case3 c s' pos h ih =>
    rw [findAux, dif_neg h]
    exact ih

/-- The (line, start)-lexicographic order on search spans. -/
def spanOrder (a b : SearchSpan) : Prop :=
  a.line < b.line ∨ (a.line = b.line ∧ a.start < b.start)

theorem searchLines_mem (q : List Char) : ∀ (ls : List Line) (i : Nat),
    ∀ sp ∈ searchLines q ls i,
      i ≤ sp.line ∧ ∃ j, j < ls.length ∧ sp.line = i + j ∧
        (sp.start, sp.endPos) ∈ findAux q (ls.getD j []) 0 := by
  intro ls
  induction ls with
  | nil => intro i sp hsp; simp [searchLines] at hsp
  | cons l ls ih =>
    intro i sp hsp
    rw [searchLines] at hsp
    rcases List.mem_append.mp hsp with h1 | h1
    · obtain ⟨p, hp, hsp⟩ := List.mem_map.mp h1
      subst hsp
      exact ⟨Nat.le_refl i, 0, Nat.succ_pos _, rfl, hp⟩
    · obtain ⟨hge, j, hj, hline, hmem⟩ := ih (i + 1) sp h1
      exact ⟨by omega, j + 1, Nat.succ_lt_succ hj, by omega, hmem⟩

theorem searchLines_sorted (q : List Char) : ∀ (ls : List Line) (i : Nat),
    (searchLines q ls i).Pairwise spanOrder := by
  intro ls
  induction ls with
  | nil => intro i; simp [searchLines]
  | cons l ls ih =>
    intro i
    rw [searchLines]
    rw [List.pairwise_append]
    refine ⟨?_, ih (i + 1), ?_⟩
    · refine List.Pairwise.map _ ?_ (findAux_sorted q l 0)
      intro a b hab
      exact Or.inr ⟨rfl, hab⟩
    · intro a ha b hb
      obtain ⟨p, hp, hpa⟩ := List.mem_map.mp ha
      have hbge := (searchLines_mem q ls (i + 1) b hb).1
      subst hpa
      refine Or.inl ?_
      show i < b.line
      omega

/-- C6: every span the search returns is a genuine case-insensitive literal
occurrence of the query in its line, its `end` is `start + length(query)`,
and the result list is ordered by (line, start); the concrete buffers of the
spec behave as stated, and an escaped metacharacter (`"a.b"`) matches only
the literal text. -/
theorem C6_find_spans (q : List Char) (content : Content) :
    (∀ sp ∈ searchRecompute q content,
      sp.endPos = sp.start + q.length ∧
      matchesAt q (((splitLines content).getD sp.line []).drop sp.start) = true) ∧
    (searchRecompute q content).Pairwise spanOrder ∧
    searchRecompute ("abc").toList ("abcabc").toList
      = [⟨0, 0, 3⟩, ⟨0, 3, 6⟩] ∧
    searchRecompute ("a.b").toList ("axb").toList = [] ∧
    searchRecompute ("a.b").toList ("a.b").toList = [⟨0, 0, 3⟩] := by
  refine ⟨?_, ?_,
    by simp [searchRecompute, searchWithPattern, compileSearchQuery, splitLines,
      searchLines, findAux, matchesAt, lowerCode],
    by simp [searchRecompute, searchWithPattern, compileSearchQuery, splitLines,
      searchLines, findAux, matchesAt, lowerCode],
    by simp [searchRecompute, searchWithPattern, compileSearchQuery, splitLines,
      searchLines, findAux, matchesAt, lowerCode]⟩
  · intro sp hsp
    rw [searchRecompute] at hsp
    by_cases hq : q.isEmpty
    · rw [if_pos hq] at hsp
      simp at hsp
    · rw [if_neg hq] at hsp
      obtain ⟨hge, j, hj, hline, hmem⟩ :=
        searchLines_mem q (splitLines content) 0 sp hsp
      obtain ⟨_, hend, hmatch⟩ := findAux_mem q _ 0 _ hmem
      have hj0 : sp.line = j := by omega
      subst hj0
      exact ⟨hend, by simpa using hmatch⟩
  · rw [searchRecompute]
    by_cases hq : q.isEmpty
    · rw [if_pos hq]
      simp
    · rw [if_neg hq]
      exact searchLines_sorted q (splitLines content) 0

/-! ### Replace lemmas -/

theorem getSubstitution_no_dollar (matched before after : List Char) :
    ∀ repl : List Char, '$' ∉ repl → getSubstitution matched before after repl = repl := by
  intro repl
  induction repl using getSubstitution.induct matched before after with
  | case1 => intro _; rfl
  | case2 => intro hd; exact absurd (List.mem_cons_self _ _) hd
  | case3 c hc => intro _; simp [getSubstitution, hc]
  | case4 rest' ih => intro hd; exact absurd (List.mem_cons_self _ _) hd
  | case5 rest' h1 ih => intro hd; exact absurd (List.mem_cons_self _ _) hd
  | case6 rest' h1 h2 ih => intro hd; exact absurd (List.mem_cons_self _ _) hd
  | case7 rest' h1 h2 h3 ih => intro hd; exact absurd (List.mem_cons_self _ _) hd
  | case8 d rest' h1 h2 h3 h4 ih => intro hd; exact absurd (List.mem_cons_self _ _) hd
  | case9 c d rest' hc ih =>
    intro hd
    have hd' : '$' ∉ d :: rest' := fun h => hd (List.mem_cons_of_mem c h)
    simp [getSubstitution, hc, ih hd']

theorem replaceAux_eq_verbatim (q repl full : List Char) (hd : '$' ∉ repl) :
    ∀ (s : List Char) (pos : Nat),
      replaceAux q repl full s pos = replaceVerbatimAux q repl s := by
  intro s pos
  induction s, pos using replaceAux.induct q repl full with
  | case1 => rw [replaceAux, replaceVerbatimAux]
  | case2 c s' pos h ih =>
    rw [replaceAux, dif_pos h, replaceVerbatimAux, dif_pos h]
    rw [getSubstitution_no_dollar _ _ _ repl hd, ih]
  | case3 c s' pos h ih =>
    rw [replaceAux, dif_neg h, replaceVerbatimAux, dif_neg h]
    rw [ih]

theorem verbatim_of_no_match (q repl : List Char) :
    ∀ (s : List Char) (pos : Nat),
      findAux q s pos = [] → replaceVerbatimAux q repl s = s := by
  intro s pos
  induction s, pos using findAux.induct q with
  | case1 => intro _; rw [replaceVerbatimAux]
  | case2 c s' pos h ih =>
    intro hf
    rw [findAux, dif_pos h] at hf
    exact absurd hf (List.cons_ne_nil _ _)
  | case3 c s' pos h ih =>
    intro hf
    rw [findAux, dif_neg h] at hf
    rw [replaceVerbatimAux, dif_neg h, ih hf]

/-- C5 counterexample: replacing query `"a"` by `"$&x"` in content `"ab"`
yields `"axb"` (JavaScript `String.replace` substitutes `$&` by the matched
text), not the verbatim splice `"$&xb"` the claim describes — so the
replacement is *not* always inserted verbatim. -/
theorem C5_counterexample :
    (handleReplaceAll ("a").toList ("$&x").toList ("ab").toList).newContent
      = ("axb").toList ∧
    replaceVerbatim ("a").toList ("$&x").toList ("ab").toList = ("$&xb").toList ∧
    (handleReplaceAll ("a").toList ("$&x").toList ("ab").toList).newContent
      ≠ replaceVerbatim ("a").toList ("$&x").toList ("ab").toList := by
  refine ⟨?_, ?_, ?_⟩ <;>
    simp [handleReplaceAll, matchCount, findAux, matchesAt, lowerCode, replaceString,
      replaceAux, getSubstitution, replaceVerbatim, replaceVerbatimAux]

/-- C5 (amended): for a non-empty query and a replacement containing no `'$'`
(so that JavaScript's replacement-pattern substitution is the identity),
replace-all equals the spec's verbatim substitution; the reported count always
equals the number of matches in the original content; zero matches leave the
content byte-for-byte unchanged and report the "no matches" outcome; and the
`"foo bar foo"`/`"foo"`/`"baz"` example yields `"baz bar baz"` with count 2. -/
theorem C5_replace_all (q repl content : Content) (hq : q ≠ []) (hd : '$' ∉ repl) :
    (handleReplaceAll q repl content).newContent = replaceVerbatim q repl content ∧
    (handleReplaceAll q repl content).count = matchCount q content ∧
    (matchCount q content = 0 →
      (handleReplaceAll q repl content).newContent = content ∧
      (handleReplaceAll q repl content).notice = .noMatches) ∧
    handleReplaceAll ("foo").toList ("baz").toList ("foo bar foo").toList
      = ⟨("baz bar baz").toList, 2, .success 2⟩ := by
  have hqe : q.isEmpty = false := by
    cases q with
    | nil => exact absurd rfl hq
    | cons a t => rfl
  have heq : handleReplaceAll q repl content =
      if matchCount q content = 0 then ⟨content, 0, .noMatches⟩
      else if replaceString q repl content = content then
        ⟨content, matchCount q content, .silent⟩
      else ⟨replaceString q repl content, matchCount q content,
            .success (matchCount q content)⟩ := by
    rw [handleReplaceAll, if_neg (by rw [hqe]; exact Bool.false_ne_true)]
  have hconc : handleReplaceAll ("foo").toList ("baz").toList ("foo bar foo").toList
      = ⟨("baz bar baz").toList, 2, .success 2⟩ := by
    simp [handleReplaceAll, matchCount, findAux, matchesAt, lowerCode, replaceString,
      replaceAux, getSubstitution, ReplaceAllResult.mk.injEq]
  by_cases hm : matchCount q content = 0
  · have hfa : findAux q content 0 = [] := List.length_eq_zero.mp hm
    have hnc : replaceVerbatim q repl content = content :=
      verbatim_of_no_match q repl content 0 hfa
    rw [heq, if_pos hm]
    exact ⟨hnc.symm, hm.symm, fun _ => ⟨rfl, rfl⟩, hconc⟩
  · have hrv : replaceString q repl content = replaceVerbatim q repl content :=
      replaceAux_eq_verbatim q repl content hd content 0
    rw [heq, if_neg hm]
    by_cases hch : replaceString q repl content = content
    · rw [if_pos hch]
      exact ⟨by rw [← hrv]; exact hch.symm, rfl, fun h => absurd h hm, hconc⟩
    · rw [if_neg hch]
      exact ⟨hrv, rfl, fun h => absurd h hm, hconc⟩

theorem C5_witness :
    (handleReplaceAll ("a").toList ("b").toList ("aa").toList).count
      = matchCount ("a").toList ("aa").toList :=
  (C5_replace_all ("a").toList ("b").toList ("aa").toList
    (by decide) (by decide)).2.1

/-- C10: the search effect returns the empty result set both for the empty
query (search inactive — not "match everything") and when the pattern fails
to compile (the `catch` branch); being a total function, it never propagates
an error to its caller. -/
theorem C10_empty_query_fails_open :
    (∀ content : Content, searchRecompute [] content = []) ∧
    (∀ content : Content, searchWithPattern none content = []) :=
  ⟨fun _ => rfl, fun _ => rfl⟩

/-! ### Cursor-invariant lemmas -/

theorem lineLen_set_self (lines : List Line) (i : Nat) (v : Line) (h : i < lines.length) :
    lineLen (lines.set i v) i = v.length := by
  unfold lineLen
  rw [List.getD_eq_getElem?_getD, List.getElem?_set_self h]
  rfl

theorem lineLen_eraseIdx_lt (lines : List Line) (i j : Nat) (h : j < i) :
    lineLen (lines.eraseIdx i) j = lineLen lines j := by
  unfold lineLen
  rw [List.getD_eq_getElem?_getD, List.getD_eq_getElem?_getD,
    List.getElem?_eraseIdx_of_lt _ _ _ h]

theorem invariant_mk (ls : List Line) (l ch : Nat) (b : Bool)
    (h1 : l < ls.length) (h2 : ch ≤ lineLen ls l) :
    (DispatchResult.mk ls l ch b).line < (DispatchResult.mk ls l ch b).lines.length ∧
    (DispatchResult.mk ls l ch b).char
      ≤ lineLen (DispatchResult.mk ls l ch b).lines (DispatchResult.mk ls l ch b).line :=
  ⟨h1, h2⟩

/-- C7 counterexample: load `"ab"`, press Right twice, type `'c'` (content
becomes `"abc"`, cursor (0,3), history `["ab","abc"]`), then undo.  The undo
branch swaps the content back to `"ab"` but never touches the cursor, which
is left at column 3 on a 2-character line — the cursor invariant is violated
and no clamping occurs.  This refutes the claim that undo is followed by
clamping the cursor into range. -/
theorem C7_counterexample :
    let s := handleKeyDown .ctrlZ (handleKeyDown (.char 'c')
      (handleKeyDown .arrowRight (handleKeyDown .arrowRight (loadDocument ("ab").toList))))
    s.content = ("ab").toList ∧ s.cursorLine = 0 ∧ s.cursorChar = 3 ∧
    ¬ cursorInRange (splitLines s.content) s.cursorLine s.cursorChar := by
  decide

/-- C7 (amended): every key handled by the `switch` — printable insertion,
Backspace, Enter, the arrow motions, Home and End — preserves the cursor
invariant with respect to the line buffer it produces.  (Undo, redo and
replace-all, by contrast, change the content without touching the cursor and
can leave it out of range, as `C7_counterexample` shows; the source performs
no clamping after a history-driven swap.) -/
theorem C7_cursor_invariant (k : Key) (lines : List Line) (line char : Nat)
    (hl : line < lines.length) (hc : char ≤ lineLen lines line) :
    (dispatchKey k lines line char).line < (dispatchKey k lines line char).lines.length ∧
    (dispatchKey k lines line char).char
      ≤ lineLen (dispatchKey k lines line char).lines (dispatchKey k lines line char).line := by
  cases k with
  | arrowUp =>
    simp only [dispatchKey]
    split
    · exact invariant_mk _ _ _ _ (by omega) (min_le_right _ _)
    · exact invariant_mk _ _ _ _ hl hc
  | arrowDown =>
    simp only [dispatchKey]
    split
    · exact invariant_mk _ _ _ _ (by omega) (min_le_right _ _)
    · exact invariant_mk _ _ _ _ hl hc
  | arrowLeft =>
    simp only [dispatchKey]
    split
    · exact invariant_mk _ _ _ _ hl (by omega)
    · split
      · exact invariant_mk _ _ _ _ (by omega) (Nat.le_refl _)
      · exact invariant_mk _ _ _ _ hl hc
  | arrowRight =>
    simp only [dispatchKey]
    split
    · next h => exact invariant_mk _ _ _ _ hl (by omega)
    · split
      · exact invariant_mk _ _ _ _ (by omega) (Nat.zero_le _)
      · exact invariant_mk _ _ _ _ hl hc
  | home =>
    exact ⟨hl, Nat.zero_le _⟩
  | endKey =>
    exact ⟨hl, Nat.le_refl _⟩
  | backspace =>
    simp only [dispatchKey]
    split
    · next h =>
      refine ⟨?_, ?_⟩
      · show line < (lines.set line
          ((lines.getD line []).take (char - 1) ++ (lines.getD line []).drop char)).length
        rw [List.length_set]
        exact hl
      · show char - 1 ≤ lineLen (lines.set line
          ((lines.getD line []).take (char - 1) ++ (lines.getD line []).drop char)) line
        rw [lineLen_set_self _ _ _ hl]
        have hcur : (lines.getD line []).length = lineLen lines line := rfl
        simp only [List.length_append, List.length_take, List.length_drop]
        omega
    · split
      · next h0 hp =>
        have hlen : ((lines.set (line - 1)
            (lines.getD (line - 1) [] ++ lines.getD line [])).eraseIdx line).length
            = lines.length - 1 := by
          rw [List.length_eraseIdx_of_lt (by simpa using hl)]
          simp
        refine invariant_mk _ _ _ _ (by omega) ?_
        rw [lineLen_eraseIdx_lt _ _ _ (by omega),
          lineLen_set_self _ _ _ (by omega)]
        simp only [List.length_append]
        omega
      · exact invariant_mk _ _ _ _ hl hc
  | enter =>
    simp only [dispatchKey]
    refine ⟨?_, ?_⟩
    · show line + 1 < (List.insertIdx (line + 1) ((lines.getD line []).drop char)
        (lines.set line ((lines.getD line []).take char))).length
      rw [List.length_insertIdx _ _ (by simpa using hl)]
      simp only [List.length_set]
      omega
    · exact Nat.zero_le _
  | char c =>
    simp only [dispatchKey]
    refine ⟨?_, ?_⟩
    · show line < (lines.set line
        ((lines.getD line []).take char ++ c :: (lines.getD line []).drop char)).length
      rw [List.length_set]
      exact hl
    · show char + 1 ≤ lineLen (lines.set line
        ((lines.getD line []).take char ++ c :: (lines.getD line []).drop char)) line
      rw [lineLen_set_self _ _ _ hl]
      have hcur : (lines.getD line []).length = lineLen lines line := rfl
      simp only [List.length_append, List.length_take, List.length_cons, List.length_drop]
      omega
  | ctrlZ => exact ⟨hl, hc⟩
  | ctrlY => exact ⟨hl, hc⟩
  | ctrlS => exact ⟨hl, hc⟩
  | other => exact ⟨hl, hc⟩

/-- C8 counterexample: two documents both named `"A"` (names are not
guaranteed unique), with contents `"x"` and `"y"`; the first is active with
history `["x"]`.  Closing document 0 makes the `"y"` document active, yet
`currentFileIndex` stays 0 and `currentFile?.name` stays `"A"`, so the
history-reset effect (keyed on exactly those two dependencies) does not run:
the history remains `["x"]`, is not the single entry `["y"]`, and
`history[index]` no longer equals the live buffer content. -/
theorem C8_counterexample :
    let s : SessionState :=
      ⟨[⟨("A").toList, ("x").toList⟩, ⟨("A").toList, ("y").toList⟩], 0⟩
    let r := closeAndEffect 0 s ⟨[("x").toList], 0⟩
    activeFile r.1 = some ⟨("A").toList, ("y").toList⟩ ∧
    r.2 = ⟨[("x").toList], 0⟩ ∧
    r.2.history ≠ [("y").toList] ∧
    histGet r.2.history r.2.index ≠ some (("y").toList) := by
  decide

/-- C8 (amended): whenever a session transition changes either of the
history-reset effect's dependencies — the active index or the active
document's name (which covers loading a document and every switch or close
that alters one of them) — the effect resets the history to the single entry
holding the now-active document's content with index 0; `history[index]` then
equals the live content and an immediate undo is a no-op.  A close that
leaves both dependencies unchanged (possible only between equally-named
documents, as in `C8_counterexample`) skips the reset. -/
theorem C8_history_reset (old new : SessionState) (h : HistState) (f : Doc)
    (hdep : old.currentFileIndex ≠ new.currentFileIndex ∨ activeName old ≠ activeName new)
    (hf : activeFile new = some f) :
    historyAfterEffect old new h = ⟨[f.content], 0⟩ ∧
    histGet (historyAfterEffect old new h).history (historyAfterEffect old new h).index
      = some f.content ∧
    (∀ st : EditorState, st.historyIndex = (historyAfterEffect old new h).index →
      handleKeyDown .ctrlZ st = st) := by
  have hre : historyAfterEffect old new h = ⟨[f.content], 0⟩ := by
    rw [historyAfterEffect, if_pos hdep, resetHistory, hf]
  refine ⟨hre, ?_, ?_⟩
  · rw [hre]
    rfl
  · intro st hst
    rw [hre] at hst
    simp only [handleKeyDown]
    rw [if_neg (by rw [hst]; exact lt_irrefl 0)]

theorem C8_witness :
    historyAfterEffect
      ⟨[⟨['A'], ['x']⟩, ⟨['B'], ['y']⟩], 0⟩
      ⟨[⟨['A'], ['x']⟩, ⟨['B'], ['y']⟩], 1⟩
      ⟨[['x']], 0⟩
      = ⟨[['y']], 0⟩ :=
  (C8_history_reset ⟨[⟨['A'], ['x']⟩, ⟨['B'], ['y']⟩], 0⟩
    ⟨[⟨['A'], ['x']⟩, ⟨['B'], ['y']⟩], 1⟩ ⟨[['x']], 0⟩ ⟨['B'], ['y']⟩
    (by decide) (by decide)).1

/-! ### Flat content versus per-line search (C9) -/

theorem matchesAt_append_mono : ∀ (q l t : List Char),
    matchesAt q l = true → matchesAt q (l ++ t) = true := by
  intro q
  induction q with
  | nil => intro l t _; rfl
  | cons a q' ih =>
    intro l t hm
    cases l with
    | nil => rw [matchesAt] at hm; exact absurd hm Bool.false_ne_true
    | cons b l' =>
      rw [matchesAt, Bool.and_eq_true] at hm
      rw [List.cons_append, matchesAt, Bool.and_eq_true]
      exact ⟨hm.1, ih l' t hm.2⟩

theorem lowerCode_eq_newline (c : Char) (h : lowerCode c = 10) : c = '\n' := by
  unfold lowerCode at h
  split at h
  · omega
  · have hofn := Char.ofNat_toNat c
    rw [h] at hofn
    rw [← hofn]

theorem not_matchesAt_newline (q : List Char) (hq : q ≠ []) (hn : '\n' ∉ q)
    (rest : List Char) : ¬ matchesAt q ('\n' :: rest) = true := by
  intro hm
  cases q with
  | nil => exact hq rfl
  | cons a q' =>
    rw [matchesAt, Bool.and_eq_true] at hm
    have ha : lowerCode a = lowerCode '\n' := beq_iff_eq.mp hm.1
    have hnl : a = '\n' := lowerCode_eq_newline a (by rw [ha]; decide)
    exact hn (hnl ▸ List.mem_cons_self a q')

theorem matchesAt_newline_bound : ∀ (q l rest : List Char), '\n' ∉ q →
    matchesAt q (l ++ '\n' :: rest) = true →
    matchesAt q l = true ∧ q.length ≤ l.length := by
  intro q
  induction q with
  | nil => intro l rest _ _; exact ⟨rfl, Nat.zero_le _⟩
  | cons a q' ih =>
    intro l rest hn hm
    cases l with
    | nil =>
      exfalso
      exact not_matchesAt_newline (a :: q') (List.cons_ne_nil a q') hn rest
        (by rw [List.nil_append] at hm; exact hm)
    | cons b l' =>
      rw [List.cons_append, matchesAt, Bool.and_eq_true] at hm
      have hn' : '\n' ∉ q' := fun h => hn (List.mem_cons_of_mem a h)
      obtain ⟨h1, h2⟩ := ih l' rest hn' hm.2
      refine ⟨?_, Nat.succ_le_succ h2⟩
      rw [matchesAt, Bool.and_eq_true]
      exact ⟨hm.1, h1⟩

theorem findAux_newline_cons (q : List Char) (hq : q ≠ []) (hn : '\n' ∉ q)
    (rest : List Char) (pos : Nat) :
    findAux q ('\n' :: rest) pos = findAux q rest (pos + 1) := by
  rw [findAux, dif_neg]
  rintro ⟨-, hm⟩
  exact not_matchesAt_newline q hq hn rest hm

theorem findAux_split (q : List Char) (hq : q ≠ []) (hn : '\n' ∉ q) :
    ∀ (n : Nat) (l : List Char), l.length ≤ n → ∀ (rest : List Char) (pos : Nat),
      findAux q (l ++ '\n' :: rest) pos
        = findAux q l pos ++ findAux q rest (pos + l.length + 1) := by
  intro n
  induction n with
  | zero =>
    intro l hl rest pos
    have hl0 : l = [] := List.length_eq_zero.mp (Nat.le_zero.mp hl)
    subst hl0
    rw [List.nil_append, findAux_newline_cons q hq hn, findAux]
    simp
  | succ n ih =>
    intro l hl rest pos
    cases l with
    | nil =>
      rw [List.nil_append, findAux_newline_cons q hq hn, findAux]
      simp
    | cons b l' =>
      have hq1 : 1 ≤ q.length := by
        cases hql : q with
        | nil => exact absurd hql hq
        | cons x xs => exact Nat.succ_le_succ (Nat.zero_le _)
      have hcons : (b :: l') ++ '\n' :: rest = b :: (l' ++ '\n' :: rest) := rfl
      by_cases hm : matchesAt q (b :: (l' ++ '\n' :: rest)) = true
      · obtain ⟨hml, hlen⟩ := matchesAt_newline_bound q (b :: l') rest hn
          (by rw [hcons]; exact hm)
        have hL : findAux q (b :: (l' ++ '\n' :: rest)) pos
            = (pos, pos + q.length)
              :: findAux q ((b :: (l' ++ '\n' :: rest)).drop q.length) (pos + q.length) := by
          rw [findAux, dif_pos ⟨hq, hm⟩]
        have hR : findAux q (b :: l') pos
            = (pos, pos + q.length)
              :: findAux q ((b :: l').drop q.length) (pos + q.length) := by
          rw [findAux, dif_pos ⟨hq, hml⟩]
        have hdrop : (b :: (l' ++ '\n' :: rest)).drop q.length
            = ((b :: l').drop q.length) ++ '\n' :: rest := by
          rw [← hcons, List.drop_append_of_le_length hlen]
        have hlen' : ((b :: l').drop q.length).length ≤ n := by
          rw [List.length_drop]
          simp only [List.length_cons]
          simp only [List.length_cons] at hl
          omega
        have harith : pos + q.length + ((b :: l').drop q.length).length + 1
            = pos + (b :: l').length + 1 := by
          have hlen2 : q.length ≤ l'.length + 1 := by simpa using hlen
          rw [List.length_drop]
          simp only [List.length_cons]
          omega
        rw [hcons, hL, hdrop, ih _ hlen' rest (pos + q.length), hR, harith,
          List.cons_append]
      · have hml : ¬ matchesAt q (b :: l') = true := fun hc =>
          hm (by rw [← hcons]; exact matchesAt_append_mono q (b :: l') ('\n' :: rest) hc)
        have hL : findAux q (b :: (l' ++ '\n' :: rest)) pos
            = findAux q (l' ++ '\n' :: rest) (pos + 1) := by
          rw [findAux, dif_neg (fun hx => hm hx.2)]
        have hR : findAux q (b :: l') pos = findAux q l' (pos + 1) := by
          rw [findAux, dif_neg (fun hx => hml hx.2)]
        have harith : pos + 1 + l'.length + 1 = pos + (b :: l').length + 1 := by
          simp only [List.length_cons]
          omega
        rw [hcons, hL, ih l' (by simpa using hl) rest (pos + 1), hR, harith]

theorem findAux_len_shift (q : List Char) : ∀ (n : Nat) (s : List Char), s.length ≤ n →
    ∀ p1 p2 : Nat, (findAux q s p1).length = (findAux q s p2).length := by
  intro n
  induction n with
  | zero =>
    intro s hs p1 p2
    have hs0 : s = [] := List.length_eq_zero.mp (Nat.le_zero.mp hs)
    subst hs0
    rw [findAux, findAux]
  | succ n ih =>
    intro s hs p1 p2
    cases s with
    | nil => rw [findAux, findAux]
    | cons b s' =>
      by_cases hm : q ≠ [] ∧ matchesAt q (b :: s') = true
      · have hq1 : 1 ≤ q.length := by
          cases hql : q with
          | nil => exact absurd hql hm.1
          | cons x xs => exact Nat.succ_le_succ (Nat.zero_le _)
        rw [findAux, dif_pos hm, findAux, dif_pos hm]
        simp only [List.length_cons] at hs ⊢
        have := ih ((b :: s').drop q.length)
          (by rw [List.length_drop]; simp only [List.length_cons]; omega)
          (p1 + q.length) (p2 + q.length)
        omega
      · rw [findAux, dif_neg hm, findAux, dif_neg hm]
        exact ih s' (by simp only [List.length_cons] at hs; omega) (p1 + 1) (p2 + 1)

theorem splitLines_ne_nil : ∀ s : Content, splitLines s ≠ [] := by
  intro s
  induction s with
  | nil => exact List.cons_ne_nil _ _
  | cons c cs ih =>
    rw [splitLines]
    cases h : splitLines cs with
    | nil => exact absurd h ih
    | cons l ls =>
      dsimp only
      split
      · exact List.cons_ne_nil _ _
      · exact List.cons_ne_nil _ _

theorem joinLines_cons_cons (c : Char) (l : Line) (ls : List Line) :
    joinLines ((c :: l) :: ls) = c :: joinLines (l :: ls) := by
  cases ls <;> rfl

theorem joinLines_splitLines : ∀ s : Content, joinLines (splitLines s) = s := by
  intro s
  induction s with
  | nil => rfl
  | cons c cs ih =>
    rw [splitLines]
    cases h : splitLines cs with
    | nil => exact absurd h (splitLines_ne_nil cs)
    | cons l ls =>
      dsimp only
      by_cases hc : c = '\n'
      · rw [if_pos hc]
        subst hc
        show '\n' :: joinLines (l :: ls) = '\n' :: cs
        rw [← h, ih]
      · rw [if_neg hc, joinLines_cons_cons, ← h, ih]

theorem searchLines_length_eq_join (q : List Char) (hq : q ≠ []) (hn : '\n' ∉ q) :
    ∀ (ls : List Line) (i : Nat),
      (searchLines q ls i).length = (findAux q (joinLines ls) 0).length := by
  intro ls
  induction ls with
  | nil =>
    intro i
    rw [searchLines, joinLines, findAux]
    rfl
  | cons l ls ih =>
    intro i
    cases ls with
    | nil =>
      rw [searchLines, searchLines]
      show ((findAux q l 0).map _ ++ []).length = (findAux q (joinLines [l]) 0).length
      rw [List.append_nil, List.length_map]
      rfl
    | cons l2 ls2 =>
      have hjoin : joinLines (l :: l2 :: ls2) = l ++ '\n' :: joinLines (l2 :: ls2) := rfl
      rw [searchLines, List.length_append, List.length_map, hjoin,
        findAux_split q hq hn l.length l (Nat.le_refl _) (joinLines (l2 :: ls2)) 0,
        List.length_append]
      have hshift := findAux_len_shift q (joinLines (l2 :: ls2)).length
        (joinLines (l2 :: ls2)) (Nat.le_refl _) (0 + l.length + 1) 0
      rw [hshift, ih (i + 1)]

theorem handleReplaceAll_count (q repl content : Content) (hq : q ≠ []) :
    (handleReplaceAll q repl content).count = matchCount q content := by
  have hqe : q.isEmpty = false := by
    cases q with
    | nil => exact absurd rfl hq
    | cons a t => rfl
  rw [handleReplaceAll, if_neg (by rw [hqe]; exact Bool.false_ne_true)]
  by_cases hm : matchCount q content = 0
  · rw [if_pos hm]
    exact hm.symm
  · rw [if_neg hm]
    show (if replaceString q repl content = content then
        (⟨content, matchCount q content, .silent⟩ : ReplaceAllResult)
      else ⟨replaceString q repl content, matchCount q content,
            .success (matchCount q content)⟩).count = matchCount q content
    split <;> rfl

/-- C9 counterexample: the query `"a\na"` (containing a newline) has no
per-line search hit in content `"a\na"` (the search splits into lines first),
yet replace-all, which matches the flat content, finds and counts one
occurrence — so the highlighted-results count and the replaced-instances
count disagree for this query. -/
theorem C9_counterexample :
    (searchRecompute ("a\na").toList ("a\na").toList).length = 0 ∧
    (handleReplaceAll ("a\na").toList ("X").toList ("a\na").toList).count = 1 ∧
    ¬ ((searchRecompute ("a\na").toList ("a\na").toList).length
        = (handleReplaceAll ("a\na").toList ("X").toList ("a\na").toList).count) := by
  refine ⟨?_, ?_, ?_⟩ <;>
    simp [searchRecompute, searchWithPattern, compileSearchQuery, splitLines, searchLines,
      findAux, matchesAt, lowerCode, handleReplaceAll, matchCount, replaceString,
      replaceAux, getSubstitution]

/-- C9 (amended): for every buffer and every query that contains no newline
character (matches can then never straddle a line boundary), the number of
spans returned by the per-line search equals the count reported by
replace-all on the same flat content; for the empty query both are zero. -/
theorem C9_search_replace_counts (content : Content) (q repl : List Char)
    (hn : '\n' ∉ q) :
    (searchRecompute q content).length = (handleReplaceAll q repl content).count := by
  by_cases hq : q = []
  · subst hq
    rfl
  · have hqe : q.isEmpty = false := by
      cases q with
      | nil => exact absurd rfl hq
      | cons a t => rfl
    rw [searchRecompute, if_neg (by rw [hqe]; exact Bool.false_ne_true),
      compileSearchQuery, searchWithPattern]
    rw [searchLines_length_eq_join q hq hn (splitLines content) 0,
      joinLines_splitLines content]
    rw [handleReplaceAll_count q repl content hq]
    rfl

theorem C9_witness :
    (searchRecompute ("a").toList ("aba").toList).length
      = (handleReplaceAll ("a").toList ("z").toList ("aba").toList).count :=
  C9_search_replace_counts ("aba").toList ("a").toList ("z").toList (by decide)

theorem C7_witness :
    (dispatchKey .enter [['a', 'b']] 0 1).line
        < (dispatchKey .enter [['a', 'b']] 0 1).lines.length ∧
    (dispatchKey .enter [['a', 'b']] 0 1).char
      ≤ lineLen (dispatchKey .enter [['a', 'b']] 0 1).lines
          (dispatchKey .enter [['a', 'b']] 0 1).line :=
  C7_cursor_invariant .enter [['a', 'b']] 0 1 (by decide) (by decide)

end EditorX
